import Mathlib

/-!
Verification of the factored Bayesian-network core of AI-Toolbox,
`include/AIToolbox/Factored/Utils/BayesianNetwork.hpp`.

The `double` arithmetic of the source is modelled with exact rationals, so
the tolerance ε of the specification becomes exact equality.  A factor
space is the list of domain sizes of its variables; a full assignment is a
list of values of the same length; a tag (`PartialKeys`) is a list of
variable indices.
-/

namespace AIToolboxFactored

/-- A factor space (list of domain sizes) or a full assignment. -/
abbrev Factors : Type := List Nat

/-- A tag: a list of variable indices, strictly increasing when well formed. -/
abbrev PartialKeys : Type := List Nat

/-- A partial assignment, mirroring the pair of a tag and its values. -/
structure PartialFactors where
  first : PartialKeys
  second : List Nat

/-- A conditional probability table, indexed by row (parent combination) and
column (child value).  Sizes are implicit; queries only touch valid indices. -/
abbrev Matrix2D : Type := Nat → Nat → ℚ

/-- Modelled from the spec: `factorSpacePartial(tag, space)` returns the product
of the domain sizes of the variables in the tag. -/
def factorSpacePartial (keys : PartialKeys) (space : Factors) : Nat :=
  (keys.map (fun k => space.getD k 0)).prod

/-- Insertion of a key into a sorted duplicate-free list of keys. -/
def insertSorted (k : Nat) : List Nat → List Nat
  | [] => [k]
  | x :: xs =>
      if k < x then k :: x :: xs
      else if k = x then x :: xs
      else x :: insertSorted k xs

/-- Modelled from the spec: `merge(a, b)` returns the sorted union of two tags
with duplicates removed (implementation lives outside the surveyed header). -/
def merge (a b : PartialKeys) : PartialKeys :=
  b.foldl (fun acc k => insertSorted k acc) a

/-- Modelled from the spec: the trace of a `PartialFactorsEnumerator` over a tag,
little-endian (the first variable of the tag varies fastest); yields exactly
`factorSpacePartial tag space` value lists. -/
def domainValues (space : Factors) : PartialKeys → List (List Nat)
  | [] => [[]]
  | k :: rest =>
      (domainValues space rest).flatMap
        (fun vs => (List.range (space.getD k 0)).map (fun v => v :: vs))

/-- Modelled from the spec: enumeration of all full assignments of a factor
space, little-endian (the first factor varies fastest). -/
def fullDomain : Factors → List (List Nat)
  | [] => [[]]
  | d :: rest =>
      (fullDomain rest).flatMap
        (fun vs => (List.range d).map (fun v => v :: vs))

/-- Lookup of the value of variable `k` in aligned tag/value lists. -/
def pfGetAux (k : Nat) : List Nat → List Nat → Option Nat
  | t :: ts, v :: vs => if t = k then some v else pfGetAux k ts vs
  | _, _ => none

/-- Lookup of the value of variable `k` in a partial assignment. -/
def pfGet (pf : PartialFactors) (k : Nat) : Option Nat :=
  pfGetAux k pf.first pf.second

/-- Modelled from the spec: the little-endian row index of a full assignment
projected onto a parent tag. -/
def toIndexFull (space : Factors) : PartialKeys → List Nat → Nat
  | [], _ => 0
  | k :: rest, s => s.getD k 0 + space.getD k 0 * toIndexFull space rest s

/-- Modelled from the spec: the little-endian row index of a partial assignment
projected onto a parent tag; fails (`none`, modelling the assertion) when the
assignment does not cover the tag. -/
def toIndexP (space : Factors) : PartialKeys → PartialFactors → Option Nat
  | [], _ => some 0
  | k :: rest, pf =>
      match pfGet pf k, toIndexP space rest pf with
      | some v, some r => some (v + space.getD k 0 * r)
      | _, _ => none

/-- A transition node of a dynamic Bayesian network: the parent tag and the
conditional probability table of one child variable. -/
structure DBNNode where
  tag : PartialKeys
  matrix : Matrix2D

instance : Inhabited DBNNode := ⟨⟨[], fun _ _ => 0⟩⟩

/-- A Dynamic Bayesian Network: one node per state factor. -/
structure DynamicBayesianNetwork where
  nodes : List DBNNode

abbrev DBN := DynamicBayesianNetwork

/-- A non-owning DBN is, at read time, just a list of nodes; references are
modelled by the nodes they dereference to. -/
abbrev DBNRef := List DBNNode

/-- Modelled from the spec: the per-child conditional product of the full-form
`getTransitionProbability`, consuming nodes and post-state values in parallel. -/
def condProd (space : Factors) (s : List Nat) : List DBNNode → List Nat → ℚ
  | [], _ => 1
  | node :: rest, s1 =>
      node.matrix (toIndexFull space node.tag s) (s1.headD 0) * condProd space s rest s1.tail

/-- Modelled from the spec: `getTransitionProbability(space, s, s1)` on full
assignments returns the product over all children of the conditional
probability of the child value given the parent row read from `s`.
The implementation is declared but not defined in the surveyed header. -/
def getTransitionProbability (space : Factors) (nodes : List DBNNode) (s s1 : List Nat) : ℚ :=
  condProd space s nodes s1

/-- Helper for the partial-form transition probability: fold over the pairs of
the post tag and its values, failing when a parent row cannot be computed. -/
def transProbAux (space : Factors) (nodes : List DBNNode) (s : PartialFactors) :
    List (Nat × Nat) → Option ℚ
  | [] => some 1
  | (i, v1) :: rest =>
      match toIndexP space (nodes.getD i default).tag s, transProbAux space nodes s rest with
      | some row, some p => some ((nodes.getD i default).matrix row v1 * p)
      | _, _ => none

/-- Modelled from the spec: `getTransitionProbability(space, s, s1)` on partial
assignments; `s` must cover every parent of every child named in the tag of
`s1`, and the result is the product over only those children; the assertion on
missing coverage is modelled by `none`. -/
def getTransitionProbabilityP (space : Factors) (nodes : List DBNNode)
    (s s1 : PartialFactors) : Option ℚ :=
  transProbAux space nodes s (s1.first.zip s1.second)

/-- A transition node of a factored DDN: the action tag selecting the relevant
action factors, and one DBN node per joint assignment of those factors. -/
structure FactoredDDNNode where
  actionTag : PartialKeys
  nodes : List DBNNode

instance : Inhabited FactoredDDNNode := ⟨⟨[], []⟩⟩

/-- A Dynamic Decision Network with factored actions. -/
structure FactoredDynamicDecisionNetwork where
  nodes : List FactoredDDNNode

abbrev FactoredDDN := FactoredDynamicDecisionNetwork

/-- Helper for the partial-form factored-DDN transition probability. -/
def ddnTransProbAux (space actions : Factors) (fnodes : List FactoredDDNNode)
    (s a : PartialFactors) : List (Nat × Nat) → Option ℚ
  | [] => some 1
  | (i, v1) :: rest =>
      (toIndexP actions (fnodes.getD i default).actionTag a).bind (fun aRow =>
        (toIndexP space ((fnodes.getD i default).nodes.getD aRow default).tag s).bind
          (fun row =>
            (ddnTransProbAux space actions fnodes s a rest).map (fun p =>
              ((fnodes.getD i default).nodes.getD aRow default).matrix row v1 * p)))

/-- Modelled from the spec: `FactoredDDN::getTransitionProbability` on partial
assignments; `a` selects the DBN node of each child through its action tag, and
the result is the per-child conditional product; missing coverage of either the
action tag or the parent tag is modelled by `none`. -/
def ddnGetTransitionProbabilityP (space actions : Factors) (ddn : FactoredDDN)
    (s a s1 : PartialFactors) : Option ℚ :=
  ddnTransProbAux space actions ddn.nodes s a (s1.first.zip s1.second)

/-- A basis function: a tag and a dense value vector over the assignments of
the tag, little-endian. -/
structure BasisFunction where
  tag : PartialKeys
  values : List ℚ

/-- A factored vector: semantically the sum of its basis functions. -/
structure FactoredVector where
  bases : List BasisFunction

/-- A basis matrix: rows indexed by state-tag assignments, columns by
action-tag assignments. -/
structure BasisMatrix where
  tag : PartialKeys
  actionTag : PartialKeys
  values : Nat → Nat → ℚ

/-- A factored 2-D matrix: semantically the sum of its basis matrices. -/
structure Factored2DMatrix where
  bases : List BasisMatrix

/-- A diff node of a compact DDN: the state-factor index it replaces and the
replacement DBN node. -/
structure CompactDDNNode where
  id : Nat
  node : DBNNode

/-- A compact DDN: a default DBN plus per-action sparse node replacements. -/
structure CompactDynamicDecisionNetwork where
  diffs : List (List CompactDDNNode)
  defaultTransition : List DBNNode

abbrev CompactDDN := CompactDynamicDecisionNetwork

/-- Modelled from the spec: `makeDiffTransition(a)` returns a DBNRef of the
length of the default DBN whose entry `i` is the diff node stored for `(a, i)`
when present, and otherwise the default node `i`.  The implementation is
declared but not defined in the surveyed header. -/
def makeDiffTransition (c : CompactDDN) (a : Nat) : DBNRef :=
  (List.range c.defaultTransition.length).map (fun i =>
    match (c.diffs.getD a []).find? (fun d => d.id == i) with
    | some d => d.node
    | none => c.defaultTransition.getD i default)

/-- The output tag of the scalar back-projection: the source folds `merge` of
the parent tag of every child in the basis tag. -/
def backProjectTag (nodes : List DBNNode) (bfTag : PartialKeys) : PartialKeys :=
  bfTag.foldl (fun acc d => merge acc (nodes.getD d default).tag) []

/-- The scalar back-projection of a basis function through a DBN (or DBNRef),
from the source: the output tag merges the parents of the children in the basis
tag, and each output entry accumulates, over the enumeration of the basis tag,
the basis value times the partial transition probability. -/
def backProject (space : Factors) (nodes : List DBNNode) (bf : BasisFunction) : BasisFunction :=
  { tag := backProjectTag nodes bf.tag
  , values :=
      (domainValues space (backProjectTag nodes bf.tag)).map (fun x =>
        ((domainValues space bf.tag).enum.map (fun p =>
          bf.values.getD p.1 0 *
            (getTransitionProbabilityP space nodes
              ⟨backProjectTag nodes bf.tag, x⟩ ⟨bf.tag, p.2⟩).getD 0)).sum) }

/-- Pointwise update of a two-index value table, modelling one matrix write. -/
def updateM (m : Nat → Nat → ℚ) (r c : Nat) (v : ℚ) : Nat → Nat → ℚ :=
  fun i j => if i = r ∧ j = c then v else m i j

/-- The action tag and state tag of the factored-DDN back-projection, from the
source: for every child in the basis tag, merge its action tag into the action
tag and the parent tag of each of its per-action nodes into the state tag. -/
def ddnBackProjectTags (ddn : FactoredDDN) (bfTag : PartialKeys) :
    PartialKeys × PartialKeys :=
  bfTag.foldl
    (fun acc d =>
      ( merge acc.1 (ddn.nodes.getD d default).actionTag
      , (ddn.nodes.getD d default).nodes.foldl (fun t n => merge t n.tag) acc.2 ))
    ([], [])

/-- The accumulated inner sum of the factored-DDN back-projection at one state
assignment `x` and one action assignment `a`, from the source loop body. -/
def ddnInnerVal (space actions : Factors) (ddn : FactoredDDN) (bf : BasisFunction)
    (tag atag : PartialKeys) (x a : List Nat) : ℚ :=
  ((domainValues space bf.tag).enum.map (fun p =>
    bf.values.getD p.1 0 *
      (ddnGetTransitionProbabilityP space actions ddn
        ⟨tag, x⟩ ⟨atag, a⟩ ⟨bf.tag, p.2⟩).getD 0)).sum

/-- The inner action loop of the factored-DDN back-projection, from the source:
consume the remaining action enumeration, writing `values(sId, aId)` and
incrementing `aId` at every step. -/
def ddnInnerLoop (f : List Nat → ℚ) (sId : Nat) :
    List (List Nat) → Nat → (Nat → Nat → ℚ) → Nat × (Nat → Nat → ℚ)
  | [], aId, vals => (aId, vals)
  | a :: rest, aId, vals => ddnInnerLoop f sId rest (aId + 1) (updateM vals sId aId (f a))

/-- The outer state loop of the factored-DDN back-projection, from the source:
note that after the first outer step the action enumerator is exhausted and the
source never resets it (nor `aId`), so later steps run the inner loop on the
empty remainder. -/
def ddnOuterLoop (g : List Nat → List Nat → ℚ) :
    List (List Nat) → List (List Nat) → Nat → Nat → (Nat → Nat → ℚ) → (Nat → Nat → ℚ)
  | [], _, _, _, vals => vals
  | x :: sRest, aState, sId, aId, vals =>
      let r := ddnInnerLoop (g x) sId aState aId vals
      ddnOuterLoop g sRest [] (sId + 1) r.1 r.2

/-- The factored-DDN back-projection of a basis function, from the source.  The
value matrix starts from `init`, the model of the uninitialized storage left by
`resize`, and receives the writes the source loops perform. -/
def ddnBackProject (init : Nat → Nat → ℚ) (space actions : Factors)
    (ddn : FactoredDDN) (bf : BasisFunction) : BasisMatrix :=
  { tag := (ddnBackProjectTags ddn bf.tag).2
  , actionTag := (ddnBackProjectTags ddn bf.tag).1
  , values :=
      ddnOuterLoop
        (fun x a => ddnInnerVal space actions ddn bf
          (ddnBackProjectTags ddn bf.tag).2 (ddnBackProjectTags ddn bf.tag).1 x a)
        (domainValues space (ddnBackProjectTags ddn bf.tag).2)
        (domainValues actions (ddnBackProjectTags ddn bf.tag).1)
        0 0 init }

/-- Modelled from the spec: `plusEqual` adds a basis function to a factored
vector (external linear-algebra layer; adding a basis to the running sum). -/
def plusEqual (space : Factors) (fv : FactoredVector) (bf : BasisFunction) :
    FactoredVector :=
  ⟨fv.bases ++ [bf]⟩

/-- The factored-vector back-projection through a DBN, from the source: fold
`plusEqual` of the per-basis back-projections. -/
def backProjectFV (space : Factors) (nodes : List DBNNode) (fv : FactoredVector) :
    FactoredVector :=
  fv.bases.foldl (fun acc basis => plusEqual space acc (backProject space nodes basis)) ⟨[]⟩

/-- Modelled from the spec: `plusEqual` adds a basis matrix to a factored 2-D
matrix (external linear-algebra layer). -/
def plusEqual2D (space actions : Factors) (m : Factored2DMatrix) (bm : BasisMatrix) :
    Factored2DMatrix :=
  ⟨m.bases ++ [bm]⟩

/-- The factored-vector back-projection through a factored DDN, from the
source: fold `plusEqual` of the per-basis back-projections. -/
def ddnBackProjectFV (init : Nat → Nat → ℚ) (space actions : Factors)
    (ddn : FactoredDDN) (fv : FactoredVector) : Factored2DMatrix :=
  fv.bases.foldl
    (fun acc basis => plusEqual2D space actions acc (ddnBackProject init space actions ddn basis))
    ⟨[]⟩

/-- Evaluation of a basis function at a full assignment: the stored value at
the little-endian index of the projection onto its tag. -/
def evalBasis (space : Factors) (bf : BasisFunction) (s : List Nat) : ℚ :=
  bf.values.getD (toIndexFull space bf.tag s) 0

/-- Evaluation of a factored vector at a full assignment: the sum of its bases. -/
def evalFV (space : Factors) (fv : FactoredVector) (s : List Nat) : ℚ :=
  (fv.bases.map (fun b => evalBasis space b s)).sum

/-- Evaluation of a basis matrix at a full state and action assignment. -/
def evalBM (space actions : Factors) (bm : BasisMatrix) (s a : List Nat) : ℚ :=
  bm.values (toIndexFull space bm.tag s) (toIndexFull actions bm.actionTag a)

/-- Evaluation of a factored 2-D matrix at a full state and action assignment:
the sum of its basis matrices. -/
def evalF2D (space actions : Factors) (m : Factored2DMatrix) (s a : List Nat) : ℚ :=
  (m.bases.map (fun b => evalBM space actions b s a)).sum

/-- The sequence of indices the scalar back-projection writes into the output
value vector: the write counter starts at zero and increments once per outer
enumeration step. -/
def backProjectWriteIndices (space : Factors) (nodes : List DBNNode)
    (bf : BasisFunction) : List Nat :=
  List.range (domainValues space (backProjectTag nodes bf.tag)).length

/-- The indices the scalar back-projection reads from the basis value vector in
one inner pass: the read counter starts at zero and increments once per inner
enumeration step. -/
def backProjectReadIndices (space : Factors) (bf : BasisFunction) : List Nat :=
  List.range (domainValues space bf.tag).length

/-! Lemmas about `merge`. -/

theorem mem_insertSorted (k k2 : Nat) (l : List Nat) :
    k2 ∈ insertSorted k l ↔ k2 = k ∨ k2 ∈ l := by
  induction l with
  | nil => simp [insertSorted]
  | cons x xs ih =>
      rw [insertSorted]
      split_ifs with h1 h2
      · simp only [List.mem_cons]
      · subst h2
        simp only [List.mem_cons]
        tauto
      · simp only [List.mem_cons, ih]
        tauto

theorem pairwise_insertSorted (k : Nat) (l : List Nat)
    (hl : l.Pairwise (· < ·)) : (insertSorted k l).Pairwise (· < ·) := by
  induction l with
  | nil => simp [insertSorted]
  | cons x xs ih =>
      rcases List.pairwise_cons.1 hl with ⟨hxlt, hxs⟩
      rw [insertSorted]
      by_cases h1 : k < x
      · rw [if_pos h1]
        refine List.pairwise_cons.2 ⟨?_, hl⟩
        intro z hz
        rcases List.mem_cons.1 hz with rfl | hz2
        · exact h1
        · exact lt_trans h1 (hxlt z hz2)
      · rw [if_neg h1]
        by_cases h2 : k = x
        · rw [if_pos h2]
          exact hl
        · rw [if_neg h2]
          refine List.pairwise_cons.2 ⟨?_, ih hxs⟩
          intro z hz
          rcases (mem_insertSorted k z xs).1 hz with rfl | hz2
          · omega
          · exact hxlt z hz2

theorem mem_merge (a b : PartialKeys) (k : Nat) : k ∈ merge a b ↔ k ∈ a ∨ k ∈ b := by
  rw [merge]
  induction b generalizing a with
  | nil => simp
  | cons x xs ih =>
      rw [List.foldl_cons, ih]
      simp only [mem_insertSorted, List.mem_cons]
      tauto

theorem pairwise_merge (a b : PartialKeys) (ha : a.Pairwise (· < ·))
    (hb : b.Pairwise (· < ·)) : (merge a b).Pairwise (· < ·) := by
  rw [merge]
  induction b generalizing a with
  | nil => exact ha
  | cons x xs ih =>
      rw [List.foldl_cons]
      exact ih _ (pairwise_insertSorted x a ha) (List.pairwise_cons.1 hb).2

theorem mem_foldl_merge {α : Type} (f : α → PartialKeys) (l : List α)
    (init : PartialKeys) (k : Nat) :
    k ∈ l.foldl (fun acc d => merge acc (f d)) init ↔ k ∈ init ∨ ∃ d ∈ l, k ∈ f d := by
  induction l generalizing init with
  | nil => simp
  | cons d rest ih =>
      rw [List.foldl_cons, ih]
      simp only [mem_merge, List.mem_cons]
      constructor
      · rintro (⟨h | h⟩ | ⟨e, he, hk⟩)
        · exact Or.inl h
        · exact Or.inr ⟨d, Or.inl rfl, h⟩
        · exact Or.inr ⟨e, Or.inr he, hk⟩
      · rintro (h | ⟨e, rfl | he, hk⟩)
        · exact Or.inl (Or.inl h)
        · exact Or.inl (Or.inr hk)
        · exact Or.inr ⟨e, he, hk⟩

theorem pairwise_foldl_merge {α : Type} (f : α → PartialKeys) (l : List α)
    (init : PartialKeys) (h0 : init.Pairwise (· < ·))
    (hf : ∀ d ∈ l, (f d).Pairwise (· < ·)) :
    (l.foldl (fun acc d => merge acc (f d)) init).Pairwise (· < ·) := by
  induction l generalizing init with
  | nil => exact h0
  | cons d rest ih =>
      rw [List.foldl_cons]
      exact ih _ (pairwise_merge _ _ h0 (hf d (List.mem_cons_self d rest)))
        (fun e he => hf e (List.mem_cons_of_mem d he))

theorem foldl_pair {α β γ : Type} (f : β → α → β) (g : γ → α → γ) (l : List α)
    (b : β) (c : γ) :
    l.foldl (fun acc d => (f acc.1 d, g acc.2 d)) (b, c) = (l.foldl f b, l.foldl g c) := by
  induction l generalizing b c with
  | nil => rfl
  | cons d rest ih => simp [List.foldl_cons, ih]

/-! Lemmas about the domain enumeration. -/

theorem sum_map_const_nat {α : Type} (l : List α) (c : Nat) :
    (l.map (fun _ => c)).sum = c * l.length := by
  induction l with
  | nil => simp
  | cons a rest ih => simp [ih, Nat.mul_succ, Nat.add_comm, Nat.mul_comm]

theorem length_domainValues (space : Factors) (keys : PartialKeys) :
    (domainValues space keys).length = factorSpacePartial keys space := by
  induction keys with
  | nil => simp [domainValues, factorSpacePartial]
  | cons k rest ih =>
      rw [domainValues, List.length_flatMap]
      have h1 : List.map
            (List.length ∘ fun vs => (List.range (space.getD k 0)).map (fun v => v :: vs))
            (domainValues space rest)
          = List.map (fun _ => space.getD k 0) (domainValues space rest) :=
        List.map_congr_left (fun vs _ => by simp)
      rw [h1, sum_map_const_nat, ih]
      rw [factorSpacePartial, factorSpacePartial, List.map_cons, List.prod_cons]

theorem length_of_mem_domainValues (space : Factors) (keys : PartialKeys)
    (vs : List Nat) (h : vs ∈ domainValues space keys) : vs.length = keys.length := by
  induction keys generalizing vs with
  | nil => simp [domainValues] at h; simp [h]
  | cons k rest ih =>
      rw [domainValues] at h
      rcases List.mem_flatMap.1 h with ⟨ws, hws, hv⟩
      rcases List.mem_map.1 hv with ⟨v, hv2, rfl⟩
      simp [ih ws hws]

/-! Lemmas about partial-assignment lookup and row indices. -/

theorem pfGetAux_isSome (k : Nat) (ts vs : List Nat) (hk : k ∈ ts)
    (hlen : ts.length ≤ vs.length) : ∃ v, pfGetAux k ts vs = some v := by
  induction ts generalizing vs with
  | nil => cases hk
  | cons t rest ih =>
      cases vs with
      | nil => simp at hlen
      | cons v vrest =>
          by_cases h : t = k
          · exact ⟨v, by simp [pfGetAux, h]⟩
          · rcases List.mem_cons.1 hk with rfl | hk2
            · exact absurd rfl h
            · rcases ih vrest hk2 (Nat.le_of_succ_le_succ hlen) with ⟨w, hw⟩
              exact ⟨w, by simp [pfGetAux, h, hw]⟩

theorem toIndexP_isSome (space : Factors) (P : PartialKeys) (pf : PartialFactors)
    (h0 : ∀ k ∈ P, (pfGet pf k).isSome = true) :
    ∃ r, toIndexP space P pf = some r := by
  induction P with
  | nil => exact ⟨0, rfl⟩
  | cons k rest ih =>
      rcases Option.isSome_iff_exists.1 (h0 k (List.mem_cons_self k rest)) with ⟨v, hv⟩
      rcases ih (fun e he => h0 e (List.mem_cons_of_mem k he)) with ⟨r, hr⟩
      exact ⟨v + space.getD k 0 * r, by rw [toIndexP, hv, hr]⟩

theorem toIndexP_none (space : Factors) (P : PartialKeys) (pf : PartialFactors)
    (k : Nat) (hk : k ∈ P) (hnone : pfGet pf k = none) :
    toIndexP space P pf = none := by
  induction P with
  | nil => cases hk
  | cons t rest ih =>
      rw [toIndexP]
      rcases List.mem_cons.1 hk with rfl | hk2
      · rw [hnone]
      · rw [ih hk2]
        cases pfGet pf t <;> rfl

/-- The partial assignment representing a full assignment: the tag is every
variable of the space. -/
def fullPF (space : Factors) (s : List Nat) : PartialFactors :=
  ⟨List.range space.length, s⟩

theorem pfGetAux_range2 (n : Nat) : ∀ (a k : Nat) (vs : List Nat),
    vs.length = n → a ≤ k → k < a + n →
    pfGetAux k (List.range' a n) vs = some (vs.getD (k - a) 0) := by
  induction n with
  | zero => intro a k vs _ h1 h2; omega
  | succ m ih =>
      intro a k vs hlen h1 h2
      cases vs with
      | nil => simp at hlen
      | cons v vrest =>
          rw [List.range'_succ, pfGetAux]
          by_cases h : a = k
          · subst h
            simp
          · have h3 : a + 1 ≤ k := by omega
            rw [if_neg h, ih (a + 1) k vrest (by simpa using hlen) h3 (by omega)]
            have h4 : k - a = (k - (a + 1)) + 1 := by omega
            rw [h4]
            rfl

theorem pfGet_fullPF (space : Factors) (s : List Nat) (k : Nat)
    (hk : k < space.length) (hlen : s.length = space.length) :
    pfGet (fullPF space s) k = some (s.getD k 0) := by
  have := pfGetAux_range2 space.length 0 k s hlen (Nat.zero_le k) (by omega)
  rw [pfGet, fullPF, List.range_eq_range']
  simpa using this

theorem toIndexP_fullPF (space : Factors) (P : PartialKeys) (s : List Nat)
    (hP : ∀ k ∈ P, k < space.length) (hlen : s.length = space.length) :
    toIndexP space P (fullPF space s) = some (toIndexFull space P s) := by
  induction P with
  | nil => rfl
  | cons k rest ih =>
      rw [toIndexP, pfGet_fullPF space s k (hP k (List.mem_cons_self k rest)) hlen,
        ih (fun e he => hP e (List.mem_cons_of_mem k he)), toIndexFull]

theorem toIndexFull_lt (space : Factors) (P : PartialKeys) (s : List Nat)
    (h : ∀ k ∈ P, s.getD k 0 < space.getD k 0) :
    toIndexFull space P s < factorSpacePartial P space := by
  induction P with
  | nil => simp [toIndexFull, factorSpacePartial]
  | cons k rest ih =>
      rw [toIndexFull, factorSpacePartial, List.map_cons, List.prod_cons]
      have h1 : s.getD k 0 < space.getD k 0 := h k (List.mem_cons_self k rest)
      have h2 : toIndexFull space rest s < factorSpacePartial rest space :=
        ih (fun e he => h e (List.mem_cons_of_mem k he))
      have h3 : factorSpacePartial rest space = (rest.map (fun x => space.getD x 0)).prod := rfl
      calc s.getD k 0 + space.getD k 0 * toIndexFull space rest s
          < space.getD k 0 * (toIndexFull space rest s + 1) := by
            rw [Nat.mul_add, Nat.mul_one]; omega
        _ ≤ space.getD k 0 * (rest.map (fun x => space.getD x 0)).prod := by
            apply Nat.mul_le_mul_left
            rw [← h3]; omega

/-! Lemmas about the partial transition product. -/

theorem transProbAux_eq_prod (space : Factors) (nodes : List DBNNode)
    (s : PartialFactors) (pairs : List (Nat × Nat))
    (h : ∀ p ∈ pairs, ∃ r, toIndexP space (nodes.getD p.1 default).tag s = some r) :
    transProbAux space nodes s pairs
      = some ((pairs.map (fun p =>
          (nodes.getD p.1 default).matrix
            ((toIndexP space (nodes.getD p.1 default).tag s).getD 0) p.2)).prod) := by
  induction pairs with
  | nil => simp [transProbAux]
  | cons p rest ih =>
      rcases h p (List.mem_cons_self p rest) with ⟨r, hr⟩
      have hrest := ih (fun q hq => h q (List.mem_cons_of_mem p hq))
      rw [List.map_cons, List.prod_cons]
      cases p with
      | mk i v1 =>
          rw [transProbAux, hr, hrest]
          simp [hr]

theorem transProbAux_none (space : Factors) (nodes : List DBNNode)
    (s : PartialFactors) (pairs : List (Nat × Nat)) (p : Nat × Nat)
    (hp : p ∈ pairs) (hnone : toIndexP space (nodes.getD p.1 default).tag s = none) :
    transProbAux space nodes s pairs = none := by
  induction pairs with
  | nil => cases hp
  | cons q rest ih =>
      cases q with
      | mk i v1 =>
          rw [transProbAux]
          rcases List.mem_cons.1 hp with rfl | hp2
          · rw [hnone]
          · rw [ih hp2]
            cases toIndexP space (nodes.getD i default).tag s <;> rfl

theorem mem_zip_of_mem_left {l1 l2 : List Nat} {i : Nat} (hi : i ∈ l1)
    (hlen : l1.length = l2.length) : ∃ b, (i, b) ∈ l1.zip l2 := by
  induction l1 generalizing l2 with
  | nil => cases hi
  | cons x xs ih =>
      cases l2 with
      | nil => simp at hlen
      | cons y ys =>
          rcases List.mem_cons.1 hi with rfl | hi2
          · exact ⟨y, List.mem_cons_self _ _⟩
          · rcases ih hi2 (by simpa using hlen) with ⟨b, hb⟩
            exact ⟨b, List.mem_cons_of_mem _ hb⟩

/-! Concrete example networks, used by the witnesses.  They realize the
two-variable deterministic DBN of the specification scenarios: child 0 has no
parents and always becomes 0; child 1 copies the negation of variable 0. -/

/-- The CPT of example child 0: one row, `P(0) = 1`. -/
def mat0 : Matrix2D := fun _ c => if c = 0 then 1 else 0

/-- The CPT of example child 1: the value flips, `matrix[r][c] = 1` iff `r ≠ c`. -/
def mat1 : Matrix2D := fun r c => if r = c then 0 else 1

/-- The identity CPT over two values. -/
def matId : Matrix2D := fun r c => if r = c then 1 else 0

/-- The example two-variable DBN of the specification scenarios. -/
def exNodes : List DBNNode := [⟨[], mat0⟩, ⟨[0], mat1⟩]

/-- C4: on full assignments the DBN transition probability is the product over
all children of the CPT entry at the little-endian parent row read from `s` and
the child value read from `s1`. -/
theorem getTransitionProbability_full_spec (space : Factors) (nodes : List DBNNode)
    (s s1 : List Nat) :
    getTransitionProbability space nodes s s1
      = ∏ i ∈ Finset.range nodes.length,
          (nodes.getD i default).matrix
            (toIndexFull space (nodes.getD i default).tag s) (s1.getD i 0) := by
  induction nodes generalizing s1 with
  | nil => simp [getTransitionProbability, condProd]
  | cons node rest ih =>
      simp only [getTransitionProbability] at ih ⊢
      rw [condProd, List.length_cons, Finset.prod_range_succ', ih s1.tail]
      have h0 : s1.headD 0 = s1.getD 0 0 := by cases s1 <;> rfl
      have h1 : ∀ i : Nat, s1.tail.getD i 0 = s1.getD (i + 1) 0 := by
        intro i; cases s1 <;> rfl
      have h2 : ∀ i : Nat, (node :: rest).getD (i + 1) default = rest.getD i default := by
        intro i; rfl
      simp only [h0, h1, h2, List.getD_cons_zero]
      ring

/-- C5: whenever the partial pre-assignment covers every parent of every child
named in the post tag, the partial transition probability is the product over
only those children of the CPT entries; and on the partial form of a full
assignment those entries are exactly the full-form per-child conditionals. -/
theorem getTransitionProbability_partial_spec (space : Factors) (nodes : List DBNNode)
    (s s1 : PartialFactors) :
    ((∀ i ∈ s1.first, ∀ k ∈ (nodes.getD i default).tag, (pfGet s k).isSome = true) →
      getTransitionProbabilityP space nodes s s1
        = some (((s1.first.zip s1.second).map (fun p =>
            (nodes.getD p.1 default).matrix
              ((toIndexP space (nodes.getD p.1 default).tag s).getD 0) p.2)).prod))
    ∧ (∀ sF : List Nat, sF.length = space.length →
        (∀ i ∈ s1.first, ∀ k ∈ (nodes.getD i default).tag, k < space.length) →
        getTransitionProbabilityP space nodes (fullPF space sF) s1
          = some (((s1.first.zip s1.second).map (fun p =>
              (nodes.getD p.1 default).matrix
                (toIndexFull space (nodes.getD p.1 default).tag sF) p.2)).prod)) := by
  constructor
  · intro hcov
    rw [getTransitionProbabilityP]
    apply transProbAux_eq_prod
    intro p hp
    have hi : p.1 ∈ s1.first := (List.of_mem_zip hp).1
    exact toIndexP_isSome space _ s (fun k hk => hcov p.1 hi k hk)
  · intro sF hlen hP
    rw [getTransitionProbabilityP]
    have hcov : ∀ p ∈ s1.first.zip s1.second,
        ∃ r, toIndexP space (nodes.getD p.1 default).tag (fullPF space sF) = some r := by
      intro p hp
      have hi : p.1 ∈ s1.first := (List.of_mem_zip hp).1
      exact ⟨toIndexFull space (nodes.getD p.1 default).tag sF,
        toIndexP_fullPF space _ sF (fun k hk => hP p.1 hi k hk) hlen⟩
    rw [transProbAux_eq_prod space nodes (fullPF space sF) _ hcov]
    congr 1
    apply congrArg List.prod
    apply List.map_congr_left
    intro p hp
    have hi : p.1 ∈ s1.first := (List.of_mem_zip hp).1
    rw [toIndexP_fullPF space _ sF (fun k hk => hP p.1 hi k hk) hlen]
    rfl

/-- Witness for C5 at the specification scenario: the partial query with the
parent covered evaluates through the theorem. -/
theorem getTransitionProbability_partial_spec_witness :
    getTransitionProbabilityP [2, 2] exNodes ⟨[0], [1]⟩ ⟨[1], [0]⟩
      = some ((([1].zip [0]).map (fun p =>
          (exNodes.getD p.1 default).matrix
            ((toIndexP [2, 2] (exNodes.getD p.1 default).tag ⟨[0], [1]⟩).getD 0) p.2)).prod) :=
  (getTransitionProbability_partial_spec [2, 2] exNodes ⟨[0], [1]⟩ ⟨[1], [0]⟩).1
    (by decide)

theorem ddnTransProbAux_isSome (space actions : Factors)
    (fnodes : List FactoredDDNNode) (s a : PartialFactors) :
    ∀ pairs : List (Nat × Nat),
      (ddnTransProbAux space actions fnodes s a pairs).isSome = true →
      ∀ p ∈ pairs, ∃ aRow,
        toIndexP actions (fnodes.getD p.1 default).actionTag a = some aRow ∧
        (toIndexP space ((fnodes.getD p.1 default).nodes.getD aRow default).tag s).isSome
          = true := by
  intro pairs
  induction pairs with
  | nil =>
      intro _ p hp
      cases hp
  | cons q rest ih =>
      intro hres p hp
      obtain ⟨i, v1⟩ := q
      rw [ddnTransProbAux] at hres
      cases hA : toIndexP actions (fnodes.getD i default).actionTag a with
      | none =>
          rw [hA] at hres
          simp at hres
      | some aRow =>
          rw [hA, Option.some_bind] at hres
          cases hB : toIndexP space ((fnodes.getD i default).nodes.getD aRow default).tag s with
          | none =>
              rw [hB] at hres
              simp at hres
          | some row =>
              rw [hB, Option.some_bind] at hres
              cases hC : ddnTransProbAux space actions fnodes s a rest with
              | none =>
                  rw [hC] at hres
                  simp at hres
              | some pr =>
                  rcases List.mem_cons.1 hp with heq | hp2
                  · subst heq
                    exact ⟨aRow, hA, by rw [hB]; rfl⟩
                  · exact ih (by rw [hC]; rfl) p hp2

theorem ddnTransProbAux_none_action (space actions : Factors)
    (fnodes : List FactoredDDNNode) (s a : PartialFactors)
    (pairs : List (Nat × Nat)) (p : Nat × Nat) (hp : p ∈ pairs)
    (hnone : toIndexP actions (fnodes.getD p.1 default).actionTag a = none) :
    ddnTransProbAux space actions fnodes s a pairs = none := by
  cases hres : ddnTransProbAux space actions fnodes s a pairs with
  | none => rfl
  | some pr =>
      exfalso
      rcases ddnTransProbAux_isSome space actions fnodes s a pairs
        (by rw [hres]; rfl) p hp with ⟨aRow, hA, _⟩
      rw [hnone] at hA
      cases hA

theorem ddnTransProbAux_none_state (space actions : Factors)
    (fnodes : List FactoredDDNNode) (s a : PartialFactors)
    (pairs : List (Nat × Nat)) (p : Nat × Nat) (hp : p ∈ pairs) (aRow : Nat)
    (hsome : toIndexP actions (fnodes.getD p.1 default).actionTag a = some aRow)
    (hnone : toIndexP space ((fnodes.getD p.1 default).nodes.getD aRow default).tag s = none) :
    ddnTransProbAux space actions fnodes s a pairs = none := by
  cases hres : ddnTransProbAux space actions fnodes s a pairs with
  | none => rfl
  | some pr =>
      exfalso
      rcases ddnTransProbAux_isSome space actions fnodes s a pairs
        (by rw [hres]; rfl) p hp with ⟨aRow2, hA, hB⟩
      rw [hsome] at hA
      cases hA
      rw [hnone] at hB
      cases hB

/-- C6: a partial transition query whose pre-assignment misses a parent
required by a child named in the post tag fails (`none`, the model of the
assertion) on a DBN or DBNRef; on a factored DDN the same holds when the
partial action misses a factor of some required action tag, or when the
pre-assignment misses a parent of the node that action selects. -/
theorem getTransitionProbability_missing_coverage_fails (space : Factors)
    (nodes : List DBNNode) (s s1 : PartialFactors) :
    (s1.first.length = s1.second.length →
      (∃ i ∈ s1.first, ∃ k ∈ (nodes.getD i default).tag, pfGet s k = none) →
      getTransitionProbabilityP space nodes s s1 = none)
    ∧ (∀ (actions : Factors) (ddn : FactoredDDN) (a : PartialFactors),
        s1.first.length = s1.second.length →
        (∃ i ∈ s1.first, toIndexP actions (ddn.nodes.getD i default).actionTag a = none) →
        ddnGetTransitionProbabilityP space actions ddn s a s1 = none)
    ∧ (∀ (actions : Factors) (ddn : FactoredDDN) (a : PartialFactors),
        s1.first.length = s1.second.length →
        (∃ i ∈ s1.first,
          (toIndexP actions (ddn.nodes.getD i default).actionTag a).isSome = true ∧
          ∃ k ∈ ((ddn.nodes.getD i default).nodes.getD
              ((toIndexP actions (ddn.nodes.getD i default).actionTag a).getD 0)
              default).tag,
            pfGet s k = none) →
        ddnGetTransitionProbabilityP space actions ddn s a s1 = none) := by
  refine ⟨?_, ?_, ?_⟩
  · rintro hlen ⟨i, hi, k, hk, hnone⟩
    rcases mem_zip_of_mem_left hi hlen with ⟨b, hb⟩
    exact transProbAux_none space nodes s _ (i, b) hb
      (toIndexP_none space _ s k hk hnone)
  · rintro actions ddn a hlen ⟨i, hi, hnone⟩
    rcases mem_zip_of_mem_left hi hlen with ⟨b, hb⟩
    exact ddnTransProbAux_none_action space actions ddn.nodes s a _ (i, b) hb hnone
  · rintro actions ddn a hlen ⟨i, hi, hsome, k, hk, hnone⟩
    rcases mem_zip_of_mem_left hi hlen with ⟨b, hb⟩
    rcases Option.isSome_iff_exists.1 hsome with ⟨aRow, haRow⟩
    refine ddnTransProbAux_none_state space actions ddn.nodes s a _ (i, b) hb aRow haRow ?_
    apply toIndexP_none space _ s k _ hnone
    rw [haRow] at hk
    exact hk

/-- Witness for C6: the scenario query whose pre-assignment names only the
child variable fails, as the parent of child 1 is not covered. -/
theorem getTransitionProbability_missing_coverage_fails_witness :
    getTransitionProbabilityP [2, 2] exNodes ⟨[1], [0]⟩ ⟨[1], [0]⟩ = none :=
  (getTransitionProbability_missing_coverage_fails [2, 2] exNodes
    ⟨[1], [0]⟩ ⟨[1], [0]⟩).1 (by decide) (by decide)

/-! Lemmas for the marginalization property. -/

theorem sum_map_flatMap {α β : Type} (l : List α) (f : α → List β) (g : β → ℚ) :
    ((l.flatMap f).map g).sum = (l.map (fun x => ((f x).map g).sum)).sum := by
  induction l with
  | nil => rfl
  | cons x rest ih =>
      rw [List.flatMap_cons, List.map_append, List.sum_append, List.map_cons, List.sum_cons, ih]

theorem sum_fullDomain_condProd (space0 : Factors) (s : List Nat) :
    ∀ (ds : Factors) (nodes : List DBNNode), ds.length = nodes.length →
    ((fullDomain ds).map (fun vs => condProd space0 s nodes vs)).sum
      = ((ds.zip nodes).map (fun p =>
          ((List.range p.1).map (fun c =>
            p.2.matrix (toIndexFull space0 p.2.tag s) c)).sum)).prod := by
  intro ds
  induction ds with
  | nil =>
      intro nodes hlen
      cases nodes with
      | nil => simp [fullDomain, condProd]
      | cons node ns => simp at hlen
  | cons d rest ih =>
      intro nodes hlen
      cases nodes with
      | nil => simp at hlen
      | cons node ns =>
          rw [fullDomain, sum_map_flatMap]
          have h1 : ∀ vs : List Nat,
              (((List.range d).map (fun v => v :: vs)).map
                (fun ws => condProd space0 s (node :: ns) ws)).sum
              = ((List.range d).map
                  (fun v => node.matrix (toIndexFull space0 node.tag s) v)).sum
                * condProd space0 s ns vs := by
            intro vs
            rw [List.map_map]
            have h2 : ∀ v ∈ List.range d,
                ((fun ws => condProd space0 s (node :: ns) ws) ∘ fun v => v :: vs) v
                  = node.matrix (toIndexFull space0 node.tag s) v * condProd space0 s ns vs := by
              intro v _
              rfl
            rw [List.map_congr_left h2, List.sum_map_mul_right]
          rw [List.map_congr_left (fun vs _ => h1 vs), List.sum_map_mul_left,
            ih ns (by simpa using hlen), List.zip_cons_cons, List.map_cons, List.prod_cons]

/-- C8: for a DBN whose CPTs are row-stochastic on their valid rows, the
transition probabilities out of any valid full pre-state sum to one over the
enumeration of all full post-states. -/
theorem getTransitionProbability_marginalizes_to_one (space : Factors)
    (nodes : List DBNNode) (s : List Nat)
    (hlen : nodes.length = space.length)
    (hslen : s.length = space.length)
    (hvalid : ∀ k, k < space.length → s.getD k 0 < space.getD k 0)
    (htags : ∀ i, i < nodes.length → ∀ k ∈ (nodes.getD i default).tag, k < space.length)
    (hnonneg : ∀ i, i < nodes.length → ∀ r, r < factorSpacePartial (nodes.getD i default).tag space →
      ∀ c, c < space.getD i 0 → 0 ≤ (nodes.getD i default).matrix r c)
    (hstoch : ∀ i, i < nodes.length → ∀ r, r < factorSpacePartial (nodes.getD i default).tag space →
      ((List.range (space.getD i 0)).map (fun c => (nodes.getD i default).matrix r c)).sum = 1) :
    ((fullDomain space).map (fun s1 => getTransitionProbability space nodes s s1)).sum = 1 := by
  have hmain := sum_fullDomain_condProd space s space nodes hlen.symm
  simp only [getTransitionProbability]
  rw [hmain]
  apply List.prod_eq_one
  intro x hx
  rcases List.mem_map.1 hx with ⟨p, hp, rfl⟩
  rcases List.mem_iff_getElem.1 hp with ⟨i, hilen, hpi⟩
  have hi2 : i < space.length := by
    rw [List.length_zip] at hilen
    omega
  have hi3 : i < nodes.length := by
    rw [List.length_zip] at hilen
    omega
  have hp1 : p.1 = space.getD i 0 := by
    rw [← hpi, List.getElem_zip, List.getD_eq_getElem space 0 hi2]
  have hp2 : p.2 = nodes.getD i default := by
    rw [← hpi, List.getElem_zip, List.getD_eq_getElem nodes default hi3]
  rw [hp1, hp2]
  apply hstoch i hi3
  apply toIndexFull_lt
  intro k hk
  exact hvalid k (htags i hi3 k hk)

/-- Witness for C8: the deterministic two-variable example network is
row-stochastic, and its outgoing probabilities from state `(0, 0)` sum to one. -/
theorem getTransitionProbability_marginalizes_to_one_witness :
    ((fullDomain [2, 2]).map
      (fun s1 => getTransitionProbability [2, 2] exNodes [0, 0] s1)).sum = 1 := by
  apply getTransitionProbability_marginalizes_to_one [2, 2] exNodes [0, 0]
    (by decide) (by decide) (by decide) (by decide)
  · intro i hi r hr c hc
    have hi2 : i < 2 := by simpa [exNodes] using hi
    clear hi hr hc
    interval_cases i <;>
      simp [exNodes, mat0, mat1] <;> split <;> norm_num
  · intro i hi r hr
    have hi2 : i < 2 := by simpa [exNodes] using hi
    clear hi
    interval_cases i
    · simp [exNodes, mat0, List.range_succ]
    · simp only [exNodes, factorSpacePartial, List.getD_cons_succ, List.getD_cons_zero,
        List.map_cons, List.map_nil, List.prod_cons, List.prod_nil] at hr
      have hr2 : r < 2 := by
        simpa using hr
      interval_cases r <;> simp [exNodes, mat1, List.range_succ]

/-! The compact DDN. -/

theorem makeDiffTransition_getD (c : CompactDDN) (a : Nat) (i : Nat)
    (hi : i < c.defaultTransition.length) :
    (makeDiffTransition c a).getD i default
      = match (c.diffs.getD a []).find? (fun d => d.id == i) with
        | some d => d.node
        | none => c.defaultTransition.getD i default := by
  have hlen : i < (makeDiffTransition c a).length := by
    simpa [makeDiffTransition] using hi
  rw [List.getD_eq_getElem _ default hlen]
  simp only [makeDiffTransition, List.getElem_map, List.getElem_range]

/-- C9: `makeDiffTransition(a)` has the length of the default DBN; when the
diff list of action `a` has pairwise distinct ids, entry `i` is the diff node
stored for `(a, i)` when one is present and the default node `i` otherwise. -/
theorem makeDiffTransition_spec (c : CompactDDN) (a : Nat)
    (hnodup : (c.diffs.getD a []).Pairwise (fun x y => x.id ≠ y.id)) :
    (makeDiffTransition c a).length = c.defaultTransition.length
    ∧ ∀ i, i < c.defaultTransition.length →
        (∀ dn ∈ c.diffs.getD a [], dn.id = i →
          (makeDiffTransition c a).getD i default = dn.node)
        ∧ ((∀ dn ∈ c.diffs.getD a [], dn.id ≠ i) →
          (makeDiffTransition c a).getD i default = c.defaultTransition.getD i default) := by
  constructor
  · simp [makeDiffTransition]
  · intro i hi
    constructor
    · intro dn hdn hid
      rw [makeDiffTransition_getD c a i hi]
      cases hfind : (c.diffs.getD a []).find? (fun d => d.id == i) with
      | none =>
          exfalso
          have := List.find?_eq_none.1 hfind dn hdn
          simp [hid] at this
      | some d2 =>
          have hd2mem : d2 ∈ c.diffs.getD a [] := List.mem_of_find?_eq_some hfind
          have hd2id : d2.id = i := by
            have := List.find?_some hfind
            simpa using this
          by_cases heq : dn = d2
          · rw [heq]
          · exfalso
            have hsymm : Symmetric (fun x y : CompactDDNNode => x.id ≠ y.id) := by
              intro x y h
              exact fun e => h e.symm
            exact (hnodup.forall hsymm hdn hd2mem heq) (hid.trans hd2id.symm)
    · intro hall
      rw [makeDiffTransition_getD c a i hi]
      have hfind : (c.diffs.getD a []).find? (fun d => d.id == i) = none := by
        apply List.find?_eq_none.2
        intro x hx
        simp [hall x hx]
      rw [hfind]

/-- The diff node of the witness scenario: action 1 replaces child 1 with the
identity CPT. -/
def exDiff : CompactDDNNode := ⟨1, ⟨[0], matId⟩⟩

/-- The witness compact DDN: the example DBN as default, no diffs for action 0,
one diff for action 1. -/
def exCompact : CompactDDN := ⟨[[], [exDiff]], exNodes⟩

/-- Witness for C9: in the scenario, entry 1 for action 1 is the diff node and
entry 1 for action 0 is the default node. -/
theorem makeDiffTransition_spec_witness :
    (makeDiffTransition exCompact 1).getD 1 default = exDiff.node
    ∧ (makeDiffTransition exCompact 0).getD 1 default
        = exCompact.defaultTransition.getD 1 default :=
  ⟨((makeDiffTransition_spec exCompact 1 (by decide)).2 1 (by decide)).1 exDiff
      (by simp [exCompact]) rfl,
   ((makeDiffTransition_spec exCompact 0 (by decide)).2 1 (by decide)).2
      (by decide)⟩

/-! The scalar back-projection. -/

/-- Coverage is structural in the scalar back-projection: the output tag
contains every parent of every child of the basis tag, so the row index of any
enumerated output assignment is always defined. -/
theorem backProject_coverage (space : Factors) (nodes : List DBNNode)
    (bf : BasisFunction) (x : List Nat)
    (hx : x ∈ domainValues space (backProjectTag nodes bf.tag))
    (d : Nat) (hd : d ∈ bf.tag) (k : Nat) (hk : k ∈ (nodes.getD d default).tag) :
    (pfGet ⟨backProjectTag nodes bf.tag, x⟩ k).isSome = true := by
  have hmem : k ∈ backProjectTag nodes bf.tag := by
    rw [backProjectTag, mem_foldl_merge (fun d => (nodes.getD d default).tag)]
    exact Or.inr ⟨d, hd, hk⟩
  have hxlen : x.length = (backProjectTag nodes bf.tag).length :=
    length_of_mem_domainValues space _ x hx
  rcases pfGetAux_isSome k _ x hmem (le_of_eq hxlen.symm) with ⟨v, hv⟩
  rw [pfGet]
  rw [hv]
  rfl

/-- C2: each entry of the scalar back-projection value vector is the sum, over
the little-endian enumeration of the basis tag, of the basis value times the
product over the children in the basis tag of the CPT entry at the row selected
by the output assignment of that entry; the vector is dense with the length of
the output tag domain. -/
theorem backProject_values_spec (space : Factors) (nodes : List DBNNode)
    (bf : BasisFunction) :
    (backProject space nodes bf).values.length
      = factorSpacePartial (backProjectTag nodes bf.tag) space
    ∧ ∀ id, id < factorSpacePartial (backProjectTag nodes bf.tag) space →
        (backProject space nodes bf).values.getD id 0
          = ((domainValues space bf.tag).enum.map (fun p =>
              bf.values.getD p.1 0 *
                ((bf.tag.zip p.2).map (fun q =>
                  (nodes.getD q.1 default).matrix
                    ((toIndexP space (nodes.getD q.1 default).tag
                      ⟨backProjectTag nodes bf.tag,
                        (domainValues space (backProjectTag nodes bf.tag)).getD id []⟩).getD 0)
                    q.2)).prod)).sum := by
  constructor
  · simp [backProject, length_domainValues]
  · intro id hid
    have hdlen : id < (domainValues space (backProjectTag nodes bf.tag)).length := by
      rw [length_domainValues]
      exact hid
    have hvlen : id < (backProject space nodes bf).values.length := by
      simpa [backProject, length_domainValues] using hid
    rw [List.getD_eq_getElem _ 0 hvlen]
    have hx : (domainValues space (backProjectTag nodes bf.tag)).getD id []
        = (domainValues space (backProjectTag nodes bf.tag))[id] :=
      List.getD_eq_getElem _ [] hdlen
    have hxmem : (domainValues space (backProjectTag nodes bf.tag)).getD id []
        ∈ domainValues space (backProjectTag nodes bf.tag) := by
      rw [hx]
      exact List.getElem_mem hdlen
    simp only [backProject, List.getElem_map]
    rw [← hx]
    apply congrArg List.sum
    apply List.map_congr_left
    intro p hp
    have hp2 : p.2 ∈ domainValues space bf.tag := List.snd_mem_of_mem_enum hp
    apply congrArg (fun z => bf.values.getD p.1 0 * z)
    have hcov : ∀ q ∈ bf.tag.zip p.2,
        ∃ r, toIndexP space (nodes.getD q.1 default).tag
          ⟨backProjectTag nodes bf.tag,
            (domainValues space (backProjectTag nodes bf.tag)).getD id []⟩ = some r := by
      intro q hq
      apply toIndexP_isSome
      intro k hk
      exact backProject_coverage space nodes bf _ hxmem q.1 (List.of_mem_zip hq).1 k hk
    rw [getTransitionProbabilityP, transProbAux_eq_prod _ _ _ _ hcov]
    rfl

/-- The basis function of the witness scenarios: the indicator of variable 1
having value 1. -/
def exBf : BasisFunction := ⟨[1], [0, 1]⟩

/-- Witness for C2: the first entry of the back-projection of the indicator
basis through the example DBN equals its inner accumulation formula. -/
theorem backProject_values_spec_witness :
    (backProject [2, 2] exNodes exBf).values.getD 0 0
      = ((domainValues [2, 2] exBf.tag).enum.map (fun p =>
          exBf.values.getD p.1 0 *
            ((exBf.tag.zip p.2).map (fun q =>
              (exNodes.getD q.1 default).matrix
                ((toIndexP [2, 2] (exNodes.getD q.1 default).tag
                  ⟨backProjectTag exNodes exBf.tag,
                    (domainValues [2, 2] (backProjectTag exNodes exBf.tag)).getD 0 []⟩).getD 0)
                q.2)).prod)).sum :=
  (backProject_values_spec [2, 2] exNodes exBf).2 0 (by decide)

/-! The back-projection tag rule. -/

theorem ddnBackProjectTags_eq (ddn : FactoredDDN) (t : PartialKeys) :
    ddnBackProjectTags ddn t
      = (t.foldl (fun acc d => merge acc (ddn.nodes.getD d default).actionTag) [],
         t.foldl (fun acc d =>
           (ddn.nodes.getD d default).nodes.foldl (fun t2 n => merge t2 n.tag) acc) []) := by
  rw [ddnBackProjectTags]
  exact foldl_pair
    (fun accl d => merge accl (ddn.nodes.getD d default).actionTag)
    (fun accr d => (ddn.nodes.getD d default).nodes.foldl (fun t2 n => merge t2 n.tag) accr)
    t [] []

theorem mem_ddn_tag_fold (ddn : FactoredDDN) (l : List Nat) (init : PartialKeys) (k : Nat) :
    k ∈ l.foldl (fun acc d =>
        (ddn.nodes.getD d default).nodes.foldl (fun t2 n => merge t2 n.tag) acc) init
      ↔ k ∈ init ∨ ∃ d ∈ l, ∃ n ∈ (ddn.nodes.getD d default).nodes, k ∈ n.tag := by
  induction l generalizing init with
  | nil => simp
  | cons d rest ih =>
      rw [List.foldl_cons, ih, mem_foldl_merge (fun n : DBNNode => n.tag)]
      constructor
      · rintro (⟨h | ⟨n, hn, hk⟩⟩ | ⟨e, he, n, hn, hk⟩)
        · exact Or.inl h
        · exact Or.inr ⟨d, List.mem_cons_self d rest, n, hn, hk⟩
        · exact Or.inr ⟨e, List.mem_cons_of_mem d he, n, hn, hk⟩
      · rintro (h | ⟨e, he, n, hn, hk⟩)
        · exact Or.inl (Or.inl h)
        · rcases List.mem_cons.1 he with rfl | he2
          · exact Or.inl (Or.inr ⟨n, hn, hk⟩)
          · exact Or.inr ⟨e, he2, n, hn, hk⟩

theorem pairwise_ddn_tag_fold (ddn : FactoredDDN) (l : List Nat) (init : PartialKeys)
    (h0 : init.Pairwise (· < ·))
    (hf : ∀ d ∈ l, ∀ n ∈ (ddn.nodes.getD d default).nodes, n.tag.Pairwise (· < ·)) :
    (l.foldl (fun acc d =>
        (ddn.nodes.getD d default).nodes.foldl (fun t2 n => merge t2 n.tag) acc) init).Pairwise
      (· < ·) := by
  induction l generalizing init with
  | nil => exact h0
  | cons d rest ih =>
      rw [List.foldl_cons]
      apply ih
      · exact pairwise_foldl_merge (fun n : DBNNode => n.tag) _ init h0
          (fun n hn => hf d (List.mem_cons_self d rest) n hn)
      · exact fun e he n hn => hf e (List.mem_cons_of_mem d he) n hn

/-- C3: the output tag of the scalar back-projection is the sorted
duplicate-free union of the parent tags of the children in the basis tag; for
the factored DDN the output state tag aggregates the parent tags of every
action instantiation of those children, and the output action tag is the union
of their action tags.  A strictly sorted list is determined by its members, so
sortedness together with the membership characterization states the rule. -/
theorem backProject_tag_rule (space actions : Factors) (nodes : List DBNNode)
    (ddn : FactoredDDN) (bf : BasisFunction) (init : Nat → Nat → ℚ)
    (hs : ∀ d ∈ bf.tag, ((nodes.getD d default).tag).Pairwise (· < ·))
    (hA : ∀ d ∈ bf.tag, ((ddn.nodes.getD d default).actionTag).Pairwise (· < ·))
    (hS : ∀ d ∈ bf.tag, ∀ n ∈ (ddn.nodes.getD d default).nodes,
      n.tag.Pairwise (· < ·)) :
    ((backProject space nodes bf).tag.Pairwise (· < ·)
      ∧ ∀ k, k ∈ (backProject space nodes bf).tag
          ↔ ∃ d ∈ bf.tag, k ∈ (nodes.getD d default).tag)
    ∧ ((ddnBackProject init space actions ddn bf).tag.Pairwise (· < ·)
      ∧ ∀ k, k ∈ (ddnBackProject init space actions ddn bf).tag
          ↔ ∃ d ∈ bf.tag, ∃ n ∈ (ddn.nodes.getD d default).nodes, k ∈ n.tag)
    ∧ ((ddnBackProject init space actions ddn bf).actionTag.Pairwise (· < ·)
      ∧ ∀ k, k ∈ (ddnBackProject init space actions ddn bf).actionTag
          ↔ ∃ d ∈ bf.tag, k ∈ (ddn.nodes.getD d default).actionTag) := by
  refine ⟨⟨?_, ?_⟩, ⟨?_, ?_⟩, ?_, ?_⟩
  · show (backProjectTag nodes bf.tag).Pairwise (· < ·)
    exact pairwise_foldl_merge (fun d => (nodes.getD d default).tag) bf.tag []
      (List.Pairwise.nil) hs
  · intro k
    show k ∈ backProjectTag nodes bf.tag ↔ _
    rw [backProjectTag, mem_foldl_merge (fun d => (nodes.getD d default).tag)]
    simp
  · show ((ddnBackProjectTags ddn bf.tag).2).Pairwise (· < ·)
    rw [ddnBackProjectTags_eq]
    exact pairwise_ddn_tag_fold ddn bf.tag [] List.Pairwise.nil hS
  · intro k
    show k ∈ (ddnBackProjectTags ddn bf.tag).2 ↔ _
    rw [ddnBackProjectTags_eq]
    rw [mem_ddn_tag_fold]
    simp
  · show ((ddnBackProjectTags ddn bf.tag).1).Pairwise (· < ·)
    rw [ddnBackProjectTags_eq]
    exact pairwise_foldl_merge (fun d => (ddn.nodes.getD d default).actionTag) bf.tag []
      List.Pairwise.nil hA
  · intro k
    show k ∈ (ddnBackProjectTags ddn bf.tag).1 ↔ _
    rw [ddnBackProjectTags_eq]
    rw [mem_foldl_merge (fun d => (ddn.nodes.getD d default).actionTag)]
    simp

/-- The basis function of the single-variable DDN scenario: the indicator of
variable 0 having value 0. -/
def exBfD : BasisFunction := ⟨[0], [1, 0]⟩

/-- The witness factored DDN over one state variable and one binary action
factor: action 0 selects the flip CPT, action 1 the identity CPT. -/
def exDDN : FactoredDDN := ⟨[⟨[0], [⟨[0], mat1⟩, ⟨[0], matId⟩]⟩]⟩

/-- Witness for C3: concrete tag memberships produced through the tag rule. -/
theorem backProject_tag_rule_witness :
    (backProject [2, 2] exNodes exBf).tag.Pairwise (· < ·)
    ∧ 0 ∈ (backProject [2, 2] exNodes exBf).tag
    ∧ 0 ∈ (ddnBackProject (fun _ _ => 0) [2] [2] exDDN exBfD).tag
    ∧ 0 ∈ (ddnBackProject (fun _ _ => 0) [2] [2] exDDN exBfD).actionTag :=
  ⟨(backProject_tag_rule [2, 2] [2] exNodes exDDN exBf (fun _ _ => 0)
      (by decide) (by decide) (by decide)).1.1,
   ((backProject_tag_rule [2, 2] [2] exNodes exDDN exBf (fun _ _ => 0)
      (by decide) (by decide) (by decide)).1.2 0).mpr ⟨1, by decide, by decide⟩,
   ((backProject_tag_rule [2] [2] exNodes exDDN exBfD (fun _ _ => 0)
      (by decide) (by decide) (by decide)).2.1.2 0).mpr
      ⟨0, by decide, ⟨[0], mat1⟩, List.Mem.head _, by decide⟩,
   ((backProject_tag_rule [2] [2] exNodes exDDN exBfD (fun _ _ => 0)
      (by decide) (by decide) (by decide)).2.2.2 0).mpr ⟨0, by decide, by decide⟩⟩

/-- C10: provided the basis value vector is dense over its tag, the scalar
back-projection writes exactly the indices `0 .. size-1` of its allocated
output (one write per outer enumeration step, so no allocated entry is left
uninitialized and no write is out of range), and every inner read of the basis
value vector is in bounds. -/
theorem backProject_write_read_safety (space : Factors) (nodes : List DBNNode)
    (bf : BasisFunction)
    (h : bf.values.length = factorSpacePartial bf.tag space) :
    backProjectWriteIndices space nodes bf
      = List.range (factorSpacePartial (backProjectTag nodes bf.tag) space)
    ∧ (backProject space nodes bf).values.length
        = factorSpacePartial (backProjectTag nodes bf.tag) space
    ∧ (backProjectWriteIndices space nodes bf).Nodup
    ∧ ∀ i ∈ backProjectReadIndices space bf, i < bf.values.length := by
  refine ⟨?_, ?_, ?_, ?_⟩
  · rw [backProjectWriteIndices, length_domainValues]
  · simp [backProject, length_domainValues]
  · rw [backProjectWriteIndices]
    exact List.nodup_range _
  · intro i hi
    rw [backProjectReadIndices, List.mem_range, length_domainValues] at hi
    omega

/-- Witness for C10: the write trace of the scenario back-projection covers its
two-entry output exactly, and the last inner read is in bounds. -/
theorem backProject_write_read_safety_witness :
    backProjectWriteIndices [2, 2] exNodes exBf
      = List.range (factorSpacePartial (backProjectTag exNodes exBf.tag) [2, 2])
    ∧ 1 < exBf.values.length :=
  ⟨(backProject_write_read_safety [2, 2] exNodes exBf (by decide)).1,
   (backProject_write_read_safety [2, 2] exNodes exBf (by decide)).2.2.2 1 (by decide)⟩

/-! Linearity of the factored-vector back-projections. -/

theorem backProjectFV_bases (space : Factors) (nodes : List DBNNode)
    (l : List BasisFunction) (acc : FactoredVector) :
    (l.foldl (fun acc2 basis => plusEqual space acc2 (backProject space nodes basis)) acc).bases
      = acc.bases ++ l.map (backProject space nodes) := by
  induction l generalizing acc with
  | nil => simp
  | cons b rest ih =>
      rw [List.foldl_cons, ih]
      simp [plusEqual]

theorem ddnBackProjectFV_bases (init : Nat → Nat → ℚ) (space actions : Factors)
    (ddn : FactoredDDN) (l : List BasisFunction) (acc : Factored2DMatrix) :
    (l.foldl (fun acc2 basis =>
        plusEqual2D space actions acc2 (ddnBackProject init space actions ddn basis)) acc).bases
      = acc.bases ++ l.map (ddnBackProject init space actions ddn) := by
  induction l generalizing acc with
  | nil => simp
  | cons b rest ih =>
      rw [List.foldl_cons, ih]
      simp [plusEqual2D]

/-- C7: the factored-vector back-projection accumulates, via `plusEqual`,
exactly the per-basis back-projections, so at every full assignment its value
is the sum of the values of the back-projections of the bases; the same holds
for the factored-DDN overload at every full state and action assignment. -/
theorem backProject_linear (space actions : Factors) (nodes : List DBNNode)
    (ddn : FactoredDDN) (fv : FactoredVector) (init : Nat → Nat → ℚ)
    (s a : List Nat) :
    (backProjectFV space nodes fv).bases
        = fv.bases.map (backProject space nodes)
    ∧ evalFV space (backProjectFV space nodes fv) s
        = (fv.bases.map (fun b => evalBasis space (backProject space nodes b) s)).sum
    ∧ (ddnBackProjectFV init space actions ddn fv).bases
        = fv.bases.map (ddnBackProject init space actions ddn)
    ∧ evalF2D space actions (ddnBackProjectFV init space actions ddn fv) s a
        = (fv.bases.map (fun b =>
            evalBM space actions (ddnBackProject init space actions ddn b) s a)).sum := by
  have h1 : (backProjectFV space nodes fv).bases
      = fv.bases.map (backProject space nodes) := by
    rw [backProjectFV, backProjectFV_bases]
    rfl
  have h2 : (ddnBackProjectFV init space actions ddn fv).bases
      = fv.bases.map (ddnBackProject init space actions ddn) := by
    rw [ddnBackProjectFV, ddnBackProjectFV_bases]
    rfl
  refine ⟨h1, ?_, h2, ?_⟩
  · rw [evalFV, h1, List.map_map]
    rfl
  · rw [evalF2D, h2, List.map_map]
    rfl

/-! The factored-DDN back-projection loop defect.  The source never resets the
action enumerator (nor the column counter) after the inner loop, so the inner
loop body runs only while the first output row is being filled: rows with
`sId ≥ 1` keep whatever the uninitialized storage held. -/

/-- C1 fails on the code: in the one-variable scenario the matrix cell
`(1, 0)` of the factored-DDN back-projection keeps the uninitialized value for
every possible initial storage content, although the claimed accumulation at
state row 1 and action column 0 equals 1. -/
theorem ddnBackProject_unwritten_row :
    (∀ init : Nat → Nat → ℚ,
      (ddnBackProject init [2] [2] exDDN exBfD).values 1 0 = init 1 0)
    ∧ ((domainValues [2] exBfD.tag).enum.map (fun p =>
        exBfD.values.getD p.1 0 *
          (ddnGetTransitionProbabilityP [2] [2] exDDN
            ⟨(ddnBackProjectTags exDDN exBfD.tag).2, [1]⟩
            ⟨(ddnBackProjectTags exDDN exBfD.tag).1, [0]⟩
            ⟨exBfD.tag, p.2⟩).getD 0)).sum = 1 := by
  have htags : ddnBackProjectTags exDDN [0] = ([0], [0]) := rfl
  constructor
  · intro init
    have hdom : domainValues [2] [0] = [[0], [1]] := rfl
    simp only [ddnBackProject, exBfD, htags, hdom, ddnOuterLoop, ddnInnerLoop, updateM]
    norm_num
  · have hdom : domainValues [2] [0] = [[0], [1]] := rfl
    simp only [exBfD, htags, hdom, List.enum_cons, List.enumFrom, List.map_cons,
      List.map_nil, List.sum_cons, List.sum_nil, List.enum_nil]
    simp only [ddnGetTransitionProbabilityP, ddnTransProbAux, exDDN, toIndexP, pfGet,
      pfGetAux]
    norm_num [toIndexP, pfGet, pfGetAux, mat1]

end AIToolboxFactored
